import Mathlib

/-!
Shallow embedding of the nengo_spinnaker hardware-mapping backend:
the filter-region binary encoder (`nengo_spinnaker/regions/filters.py`),
and — modelled from the specification, since the module itself is not in
the source tree — the constraint-driven partitioner and the cluster
assigner of `partition_and_cluster`.

Buffers are byte lists (`List Nat`, one entry per byte).  `struct_pack_into`
models Python's `struct.pack_into` for in-range writes; `sliceAssign`
models Python bytearray slice assignment `buf[i:j] = xs`, which replaces
the clamped slice and may therefore grow the buffer.
-/

namespace NengoSpinnaker

/-- Little-endian encoding of one 32-bit word as four bytes
(`struct.pack("<I", w)`). -/
def packWordLE (w : Nat) : List Nat :=
  [w % 256, w / 256 % 256, w / 65536 % 256, w / 16777216 % 256]

/-- Little-endian encoding of a sequence of 32-bit words. -/
def packWordsLE (ws : List Nat) : List Nat :=
  (ws.map packWordLE).flatten

/-- Python `struct.pack_into(fmt, buf, off, ...)` for an in-range write:
overwrite `bs.length` bytes of `buf` starting at byte `off`. -/
def struct_pack_into (buf : List Nat) (off : Nat) (bs : List Nat) : List Nat :=
  buf.take off ++ bs ++ buf.drop (off + bs.length)

/-- Python bytearray slice assignment `buf[i:j] = xs` (non-negative
indices): the indices are clamped to the buffer length, the (possibly
empty) slice is removed and `xs` inserted in its place.  When
`xs.length` differs from the slice length the buffer changes size. -/
def sliceAssign (buf : List Nat) (i j : Nat) (xs : List Nat) : List Nat :=
  buf.take (min i buf.length) ++ xs ++ buf.drop (max (min i buf.length) (min j buf.length))

/-- Modelled from the spec: the system-wide fixed-point conversion
(`nengo_spinnaker.utils.type_casts.value_to_fix`, a module absent from
the source tree): a fixed fractional-bit width (S16.15) maps a real
value to a signed integer, represented here as its 32-bit word. -/
def value_to_fix (v : ℚ) : Nat :=
  (Int.floor (v * 32768) % 4294967296).toNat

/-- Modelled from the spec: elementwise fixed-point conversion of an
array (`nengo_spinnaker.utils.type_casts.np_to_fix`), with the same
scaling convention. -/
def np_to_fix (vs : List ℚ) : List Nat :=
  vs.map value_to_fix

/-- Interleave two equal-length coefficient lists:
`np.vstack((xs, ys)).T.flatten()`. -/
def interleave : List ℚ → List ℚ → List ℚ
  | x :: xs, y :: ys => x :: y :: interleave xs ys
  | _, _ => []

/-- External numeric collaborators of the encoder: `np.exp` and
`nengo.utils.filter_design.cont2discrete` (both outside this
repository).  `cont2discrete num den dt` returns the flattened
discrete-time numerator `b` and the denominator `a`. -/
structure ExternalOps where
  exp : ℚ → ℚ
  cont2discrete : List ℚ → List ℚ → ℚ → List ℚ × List ℚ

/-- The real `cont2discrete` returns a denominator of the same length as
its input denominator; the general encoder theorems assume this of the
abstract external operation. -/
def ExternalOps.DenLengthOk (E : ExternalOps) : Prop :=
  ∀ num den dt, ((E.cont2discrete num den dt).2).length = den.length

/-- The closed family of filters of `regions/filters.py`:
`NoneFilter`, `LowpassFilter` and `LinearFilter`, each carrying the
common `width` and `latching` fields of class `Filter` plus its own
parameters.  Structural equality is exactly the chained `__eq__`
contract (same class, same width, same latching, same parameters). -/
inductive Filter where
  | noneFilter (width : Nat) (latching : Bool)
  | lowpassFilter (width : Nat) (latching : Bool) (time_constant : ℚ)
  | linearFilter (width : Nat) (latching : Bool) (num den : List ℚ)
deriving DecidableEq

namespace Filter

/-- Common field `width`. -/
def width : Filter → Nat
  | noneFilter w _ => w
  | lowpassFilter w _ _ => w
  | linearFilter w _ _ _ => w

/-- Common field `latching`. -/
def latching : Filter → Bool
  | noneFilter _ l => l
  | lowpassFilter _ l _ => l
  | linearFilter _ l _ _ => l

/-- Field `order` of `LinearFilter` (`len(den) - 1`); 0 for the other
variants, which do not carry it. -/
def order : Filter → Nat
  | linearFilter _ _ _ den => den.length - 1
  | _ => 0

/-- Method `method_index`: index into the C array of filter functions. -/
def method_index : Filter → Nat
  | noneFilter _ _ => 0
  | lowpassFilter _ _ _ => 1
  | linearFilter _ _ _ _ => 2

/-- Method `size_words`: number of parameter words following the header. -/
def size_words : Filter → Nat
  | noneFilter _ _ => 0
  | lowpassFilter _ _ _ => 2
  | linearFilter _ _ _ den => 1 + (den.length - 1) * 2

/-- Method `pack_data`: write the variant-specific parameter words into
`buffer` at byte offset `offset`.  Mirrors the source line by line:
the Lowpass filter packs the two fixed-point coefficients
`a = exp(-dt/τ)`, `b = 1 - a`; the LinearFilter discretizes via
`cont2discrete`, asserts that the leading discrete numerator
coefficient is zero (`assert b[0] == 0.0`, modelled as failure),
interleaves `(-a[1:], b[1:])` (a NumPy `vstack`, which requires the two
rows to have equal length), packs the order word with
`struct.pack_into` and then writes the fixed-point coefficient bytes
with the slice assignment `buffer[offset + 4:4+self.order*8] = ...`
— whose upper bound omits `offset`, exactly as in the source. -/
def pack_data (E : ExternalOps) (f : Filter) (dt : ℚ) (buffer : List Nat)
    (offset : Nat) : Option (List Nat) :=
  match f with
  | noneFilter _ _ => some buffer
  | lowpassFilter _ _ tau =>
      let a := E.exp (-dt / tau)
      let b := 1 - a
      some (struct_pack_into buffer offset (packWordsLE [value_to_fix a, value_to_fix b]))
  | linearFilter _ _ num den =>
      match E.cont2discrete num den dt with
      | (b0 :: btail, _ :: atail) =>
          if b0 = 0 then
            if btail.length = atail.length then
              let ab := interleave (atail.map (fun x => -x)) btail
              let buffer1 := struct_pack_into buffer offset (packWordLE (den.length - 1))
              some (sliceAssign buffer1 (offset + 4) (4 + (den.length - 1) * 8)
                (packWordsLE (np_to_fix ab)))
            else none
          else none
      | _ => none

/-- Method `pack_into`: pack the common four-word header
`{size_words, method_index, width, flags}` (flag bit 0 = latching) at
`offset`, then the variant data at `offset + 16`. -/
def pack_into (E : ExternalOps) (f : Filter) (dt : ℚ) (buffer : List Nat)
    (offset : Nat) : Option (List Nat) :=
  let buffer1 := struct_pack_into buffer offset
    (packWordsLE [f.size_words, f.method_index, f.width, if f.latching then 1 else 0])
  f.pack_data E dt buffer1 (offset + 16)

end Filter

/-- Region of memory containing the filter parameters
(`FilterRegion`). -/
structure FilterRegion where
  filters : List Filter
  dt : ℚ

/-- Method `FilterRegion.sizeof`: one count word plus, per filter, four
header words and its parameter words, in bytes. -/
def FilterRegion.sizeof (r : FilterRegion) : Nat :=
  (1 + 4 * r.filters.length + (r.filters.map Filter.size_words).sum) * 4

/-- Method `FilterRegion.write_subregion_to_file`: allocate a zeroed
buffer of `sizeof` bytes, write the filter count in word 0, then pack
each filter at the running word offset (starting at word 1, advancing
by `size_words + 4` words per filter); the bytes handed to `fp.write`
are returned. -/
def FilterRegion.write_subregion_to_file (E : ExternalOps) (r : FilterRegion) :
    Option (List Nat) := do
  let data0 := struct_pack_into (List.replicate r.sizeof 0) 0 (packWordLE r.filters.length)
  let st ← r.filters.foldlM
    (fun (st : List Nat × Nat) f => do
      let d ← f.pack_into E r.dt st.1 (st.2 * 4)
      pure (d, st.2 + f.size_words + 4))
    (data0, 1)
  pure st.1

/-- Routing keyspace, modelling the three calls made on a
`rig.bitfield.BitField` by the routing region (an external library):
the key value under the filter-routing tag, the mask under that tag,
and the mask of the index field.  For `make_filter_regions` the
identity of the keyspace object is what is recorded, modelled as an
opaque numeric identifier. -/
structure Keyspace where
  ident : Nat
  get_value_routing : Nat
  get_mask_routing : Nat
  get_mask_index : Nat
deriving DecidableEq

/-- Region mapping routing entries to filter indices
(`FilterRoutingRegion`). -/
structure FilterRoutingRegion where
  keyspace_routes : List (Keyspace × Nat)

/-- Method `FilterRoutingRegion.sizeof`: one count word plus four words
per entry, in bytes. -/
def FilterRoutingRegion.sizeof (r : FilterRoutingRegion) : Nat :=
  4 * (1 + 4 * r.keyspace_routes.length)

/-- Words of one routing entry: key value masked to the filter-routing
tag, key mask for that tag, key mask for the index field, and the
filter table index. -/
def routeWords (p : Keyspace × Nat) : List Nat :=
  [p.1.get_value_routing, p.1.get_mask_routing, p.1.get_mask_index, p.2]

/-- Method `FilterRoutingRegion.write_subregion_to_file`: allocate a
zeroed buffer of `sizeof` bytes, write the entry count in word 0, and
the four words of entry `i` at byte `4 + 16*i`. -/
def FilterRoutingRegion.write_subregion_to_file (r : FilterRoutingRegion) : List Nat :=
  let data0 := struct_pack_into (List.replicate r.sizeof 0) 0
    (packWordLE r.keyspace_routes.length)
  r.keyspace_routes.enum.foldl
    (fun d p => struct_pack_into d (4 + 16 * p.1) (packWordsLE (routeWords p.2)))
    data0

/-- Continuous-time filter description attached to a reception spec
(`reception_params.filter`): `None`, `nengo.synapses.Lowpass` or
`nengo.synapses.LinearFilter`. -/
inductive FilterSpec where
  | noneSpec
  | lowpassSpec (tau : ℚ)
  | linearSpec (num den : List ℚ)
deriving DecidableEq

/-- Reception parameters: the continuous-time filter and the signal
width. -/
structure ReceptionParams where
  filter : FilterSpec
  width : Nat

/-- Signal: carries a routing keyspace and a latching flag. -/
structure Signal where
  keyspace : Keyspace
  latching : Bool

/-- Dispatch of `supported_filter_types[type(reception_params.filter)]
.from_parameters(signal, reception_params, width)`: build the concrete
filter, with `width` taken from the reception parameters unless
overridden. -/
def from_parameters (sig : Signal) (rp : ReceptionParams) (width : Option Nat) : Filter :=
  let w := width.getD rp.width
  match rp.filter with
  | .noneSpec => .noneFilter w sig.latching
  | .lowpassSpec tau => .lowpassFilter w sig.latching tau
  | .linearSpec num den => .linearFilter w sig.latching num den

/-- Loop body state of `make_filter_regions`: the filter table built so
far and the routes recorded so far. -/
def mfrStep (minimise : Bool) (width : Option Nat)
    (st : List Filter × List (Keyspace × Nat)) (sr : Signal × ReceptionParams) :
    List Filter × List (Keyspace × Nat) :=
  let f := from_parameters sr.1 sr.2 width
  match (if minimise then st.1.findIdx? (fun g => f = g) else none) with
  | some i => (st.1, st.2 ++ [(sr.1.keyspace, i)])
  | none => (st.1 ++ [f], st.2 ++ [(sr.1.keyspace, st.1.length)])

/-- Function `make_filter_regions` (filter construction and routing
part): for each `(signal, reception_params)` pair construct the filter;
if `minimise` is set and an equal filter already exists in the table,
reuse the first such index (the `for ... else` search of the source),
otherwise append a new entry; record `(signal.keyspace, index)` per
input pair in order.  Returns the filter table and the routes from
which the two regions are built. -/
def make_filter_regions (specs : List (Signal × ReceptionParams)) (minimise : Bool)
    (width : Option Nat) : List Filter × List (Keyspace × Nat) :=
  specs.foldl (mfrStep minimise width) ([], [])

/-- Modelled from the spec: `partition_and_cluster.Constraint` (the
module is absent from the source tree) — a hard `maximum` paired with a
`target` utilization fraction. -/
structure Constraint where
  maximum : ℚ
  target : ℚ
deriving DecidableEq

/-- Modelled from the spec: the derived effective budget
`max_usage = maximum * target`. -/
def Constraint.max_usage (c : Constraint) : ℚ :=
  c.maximum * c.target

/-- Modelled from the spec: `partition_and_cluster.UnpartitionableError`
— carries the offending constraint and the cursor position. -/
structure UnpartitionableError where
  constraint : Constraint
  cursor : Nat
deriving DecidableEq

/-- Usage estimators are functions of a half-open range `[a, b)`,
giving a numeric usage. -/
abbrev UsageFn := Nat → Nat → ℚ

/-- Modelled from the spec: the per-constraint search for the largest
chunk length `L ∈ [0, n]` whose usage stays within the budget (the
spec's binary search, which under the documented monotonicity
assumption computes exactly the greatest such `L`). -/
def maxChunk (f : UsageFn) (budget : ℚ) (cursor n : Nat) : Nat :=
  Nat.findGreatest (fun L => f cursor (cursor + L) ≤ budget) n

/-- Modelled from the spec: the greedy loop of
`partition_and_cluster.partition`.  At each step take the minimum over
all constraints of the per-constraint maximal length; emit the chunk
and advance if it is positive, otherwise fail with the offending
constraint and cursor.  The fuel argument bounds the iteration count
(each successful step advances the cursor by at least one). -/
def partitionAux (cs : List (Constraint × UsageFn)) (stop : Nat) :
    Nat → Nat → Except UnpartitionableError (List (Nat × Nat))
  | 0, _ => .ok []
  | fuel + 1, cursor =>
    if stop ≤ cursor then .ok []
    else
      let n := stop - cursor
      let lens := cs.map (fun cf => maxChunk cf.2 cf.1.max_usage cursor n)
      let lstar := lens.foldr min n
      if lstar = 0 then
        match cs.find? (fun cf => maxChunk cf.2 cf.1.max_usage cursor n == 0) with
        | some cf => .error ⟨cf.1, cursor⟩
        | none => .error ⟨⟨0, 0⟩, cursor⟩
      else
        (partitionAux cs stop fuel (cursor + lstar)).map
          (fun rest => (cursor, cursor + lstar) :: rest)

/-- Modelled from the spec: `partition_and_cluster.partition` over the
range `[start, stop)` with the given constraint-to-estimator mapping. -/
def partition (cs : List (Constraint × UsageFn)) (start stop : Nat) :
    Except UnpartitionableError (List (Nat × Nat)) :=
  partitionAux cs stop (stop - start) start

/-- Physical locations are opaque equality-comparable values; modelled
as numbers. -/
abbrev Loc := Nat

/-- Modelled from the spec: per-group cluster allocation — walk the
group's slices in their stable enumeration order, allocating a fresh
sequential id the first time each location is seen and reusing the id
of an already-seen location. -/
def assignAux (place : Nat → Loc) (seen : List Loc) : List Nat → List (Nat × Nat)
  | [] => []
  | s :: rest =>
    match seen.findIdx? (fun l => l = place s) with
    | some i => (s, i) :: assignAux place seen rest
    | none => (s, seen.length) :: assignAux place (seen ++ [place s]) rest

/-- Modelled from the spec: the cluster ids of one group, paired with
its slices in enumeration order. -/
def identify_clusters_group (place : Nat → Loc) (group : List Nat) : List (Nat × Nat) :=
  assignAux place [] group

/-- Modelled from the spec: the slice-to-cluster assignment of all
groups (each group labelled independently). -/
def clusterMap (place : Nat → Loc) (groups : List (List Nat)) : List (Nat × Nat) :=
  (groups.map (identify_clusters_group place)).flatten

/-- Modelled from the spec: read a slice's cluster id from the
assignment; slices outside every group keep the default id 0. -/
def getCluster (m : List (Nat × Nat)) (s : Nat) : Nat :=
  ((m.find? (fun p => p.1 = s)).map Prod.snd).getD 0

/-- Modelled from the spec: a routing key, which may or may not declare
the reserved `cluster` field; when declared it carries a value
(defaulting to 0 on a fresh key). -/
structure RoutingKey where
  has_cluster : Bool
  cluster_val : Nat
deriving DecidableEq

/-- Modelled from the spec: reading the `cluster` field of a key; on a
key whose format does not declare the field this is the
unavailable-field condition, modelled as `none`. -/
def RoutingKey.read_cluster (k : RoutingKey) : Option Nat :=
  if k.has_cluster then some k.cluster_val else none

/-- Modelled from the spec: write the `cluster` field, but only if the
key's format declares it; otherwise leave the key untouched. -/
def RoutingKey.write_cluster (k : RoutingKey) (v : Nat) : RoutingKey :=
  if k.has_cluster then ⟨k.has_cluster, v⟩ else k

/-- Modelled from the spec: a net — a source vertex-slice and a routing
key (sinks and weight play no role in clustering). -/
structure Net where
  source : Nat
  keyspace : RoutingKey
deriving DecidableEq

/-- Modelled from the spec:
`partition_and_cluster.identify_clusters` — allocate per-group cluster
ids, then for every net whose source slice belongs to some group write
the source's cluster id into the net's routing key (only when the key
declares the field).  Returns the assignment and the updated nets. -/
def identify_clusters (place : Nat → Loc) (nets : List Net)
    (groups : List (List Nat)) : List (Nat × Nat) × List Net :=
  let cm := clusterMap place groups
  (cm, nets.map (fun net =>
    if groups.any (fun g => net.source ∈ g) then
      ⟨net.source, net.keyspace.write_cluster (getCluster cm net.source)⟩
    else net))

/-! Specification-side definitions, used to state the claims: the
expected binary layouts, the coverage predicate for partition chunks,
and first-occurrence orderings.  These follow the words of the spec and
are compared against the embedded code above. -/

/-- Flags word of a filter header: bit 0 = latching. -/
def filterFlags (f : Filter) : Nat :=
  if f.latching then 1 else 0

/-- Spec: the fixed 4-word header of a filter table entry,
`{words-following, method-index, width, flags}`. -/
def specFilterHeader (f : Filter) : List Nat :=
  [f.size_words, f.method_index, f.width, filterFlags f]

/-- Spec: the variant-specific payload words of a filter table entry
(`none` when discretization fails its precondition): nothing for a None
filter; the two fixed-point coefficients for a Lowpass filter; the
order word followed by the interleaved (negated-denominator, numerator)
fixed-point pairs for a LinearFilter. -/
def specFilterPayload (E : ExternalOps) (dt : ℚ) : Filter → Option (List Nat)
  | .noneFilter _ _ => some []
  | .lowpassFilter _ _ tau =>
      some [value_to_fix (E.exp (-dt / tau)), value_to_fix (1 - E.exp (-dt / tau))]
  | .linearFilter _ _ num den =>
      match E.cont2discrete num den dt with
      | (b0 :: btail, _ :: atail) =>
          if b0 = 0 ∧ btail.length = atail.length then
            some ((den.length - 1) ::
              np_to_fix (interleave (atail.map (fun x => -x)) btail))
          else none
      | _ => none

/-- Spec: the bytes of one filter table entry — header then payload. -/
def specFilterBlock (E : ExternalOps) (dt : ℚ) (f : Filter) : Option (List Nat) :=
  (specFilterPayload E dt f).map (fun p => packWordsLE (specFilterHeader f ++ p))

/-- Spec: the Filter Region layout — one leading count word, then each
filter's header and payload in table order. -/
def specRegionLayout (E : ExternalOps) (dt : ℚ) (fs : List Filter) : Option (List Nat) :=
  (fs.mapM (specFilterBlock E dt)).map
    (fun blocks => packWordLE fs.length ++ blocks.flatten)

/-- Coverage predicate for the partitioner's output: the chunks are
listed left to right, each has positive length, consecutive chunks are
contiguous, and together they tile exactly the range `[start, stop)`. -/
def chunksCover (start stop : Nat) : List (Nat × Nat) → Prop
  | [] => start = stop
  | c :: rest => c.1 = start ∧ c.1 < c.2 ∧ c.2 ≤ stop ∧ chunksCover c.2 stop rest

instance instDecidableChunksCover (start stop : Nat) :
    ∀ l : List (Nat × Nat), Decidable (chunksCover start stop l)
  | [] => by unfold chunksCover; infer_instance
  | c :: rest => by
      unfold chunksCover
      have := instDecidableChunksCover c.2 stop rest
      infer_instance

/-- Monotonicity of a usage estimator in the chunk length (the spec's
documented caller contract). -/
def MonoUsage (f : UsageFn) : Prop :=
  ∀ cursor a b, a ≤ b → f cursor (cursor + a) ≤ f cursor (cursor + b)

/-- Elements of a list that are not in `seen`, keeping only the first
occurrence of each, in order of first occurrence. -/
def firstOccsAux {α : Type _} [DecidableEq α] (seen : List α) : List α → List α
  | [] => []
  | x :: l =>
      if x ∈ seen then firstOccsAux seen l
      else x :: firstOccsAux (seen ++ [x]) l

/-- First occurrences of a list's elements, in order. -/
def firstOccs {α : Type _} [DecidableEq α] (l : List α) : List α :=
  firstOccsAux [] l

/-- Concrete external operations used to evaluate the encoder: any
exponential stub, and a discretization whose numerator has leading
coefficient zero with matching shapes (as the real `cont2discrete`
produces on a strictly proper filter). -/
def extOps0 : ExternalOps :=
  ⟨fun _ => 1/2, fun _ den _ => (List.replicate den.length 0, List.replicate den.length 0)⟩

/-- Concrete external operations with an order-1 discretization result. -/
def extOps1 : ExternalOps :=
  ⟨fun _ => 1/2, fun _ _ _ => ([0, 1/2], [1, 1/2])⟩

/-- Concrete external operations whose discretized numerator has a
non-zero leading coefficient (a non-strictly-proper filter). -/
def extOpsBad : ExternalOps :=
  ⟨fun _ => 1/2, fun _ _ _ => ([1/2, 0], [1, 1/2])⟩

/-! Theorems about the embedded code. -/

/-- C1: the claim states that packing a LinearFilter of order `n` at a
given offset writes the order word at that offset and the `2n`
fixed-point coefficient words in place immediately after it, regardless
of position.  The code violates this: the slice assignment
`buffer[offset + 4:4+self.order*8]` omits `offset` in its upper bound,
so at the offsets used inside a filter table the coefficient bytes are
inserted and the buffer grows — here an order-1 filter packed at byte
offset 20 of a 32-byte buffer yields a 40-byte buffer instead of
writing 8 bytes in place (the `size_words = 1 + 2n` half does hold). -/
theorem claim1_linear_pack_data_inserts_instead_of_overwriting :
    (Filter.pack_data extOps1 (Filter.linearFilter 1 false [0, 1] [1, 1]) (1/1000)
        (List.replicate 32 0) 20).map List.length = some 40 ∧
    Filter.size_words (Filter.linearFilter 1 false [0, 1] [1, 1]) = 1 + 2 * 1 := by
  constructor <;> rfl

/-- C10: the claim states that `write_subregion_to_file` emits exactly
`sizeof()` bytes for every FilterRegion.  The slice-assignment bug of
`LinearFilter.pack_data` grows the buffer, so a region holding one
order-1 LinearFilter emits 40 bytes while `sizeof` is 32. -/
theorem claim10_filter_region_write_exceeds_sizeof :
    (FilterRegion.write_subregion_to_file extOps1
        ⟨[Filter.linearFilter 1 false [0, 1] [1, 1]], 1/1000⟩).map List.length = some 40 ∧
    FilterRegion.sizeof ⟨[Filter.linearFilter 1 false [0, 1] [1, 1]], 1/1000⟩ = 32 := by
  constructor <;> rfl

/-- C9: encoding a LinearFilter asserts that the leading discretized
numerator coefficient is exactly zero: whenever the discretization
returns a leading numerator coefficient of zero (with the matching
coefficient shapes the real `cont2discrete` produces), packing
succeeds; when the leading coefficient is non-zero, packing fails fast
at the assertion. -/
theorem claim9_linear_pack_asserts_leading_numerator_zero
    (E : ExternalOps) (w : Nat) (lt : Bool) (num den : List ℚ) (dt : ℚ)
    (buffer : List Nat) (offset : Nat) (b0 : ℚ) (bt : List ℚ) (a0 : ℚ) (at1 : List ℚ)
    (hc : E.cont2discrete num den dt = (b0 :: bt, a0 :: at1)) :
    (b0 = 0 → bt.length = at1.length →
      (Filter.pack_data E (Filter.linearFilter w lt num den) dt buffer offset).isSome = true) ∧
    (b0 ≠ 0 →
      Filter.pack_data E (Filter.linearFilter w lt num den) dt buffer offset = none) := by
  unfold Filter.pack_data
  simp only [hc]
  constructor
  · intro h1 h2
    simp [h1, h2]
  · intro h1
    simp [h1]

/-- Witness for C9 at concrete inputs: a strictly proper discretization
packs successfully, a non-strictly-proper one is rejected. -/
theorem claim9_witness :
    (Filter.pack_data extOps1 (Filter.linearFilter 1 false [0, 1] [1, 1]) (1/1000)
        (List.replicate 32 0) 20).isSome = true ∧
    Filter.pack_data extOpsBad (Filter.linearFilter 1 false [0, 1] [1, 1]) (1/1000)
        (List.replicate 32 0) 20 = none := by
  constructor
  · exact (claim9_linear_pack_asserts_leading_numerator_zero extOps1 1 false [0, 1] [1, 1]
      (1/1000) (List.replicate 32 0) 20 0 [1/2] 1 [1/2] rfl).1 rfl rfl
  · exact (claim9_linear_pack_asserts_leading_numerator_zero extOpsBad 1 false [0, 1] [1, 1]
      (1/1000) (List.replicate 32 0) 20 (1/2) [0] 1 [1/2] rfl).2 (by norm_num)

theorem packWordsLE_cons (w : Nat) (ws : List Nat) :
    packWordsLE (w :: ws) = packWordLE w ++ packWordsLE ws := rfl

theorem packWordLE_length (w : Nat) : (packWordLE w).length = 4 := rfl

theorem packWordsLE_length (ws : List Nat) : (packWordsLE ws).length = 4 * ws.length := by
  induction ws with
  | nil => rfl
  | cons w ws ih =>
      rw [packWordsLE_cons, List.length_append, packWordLE_length, ih, List.length_cons]
      ring

theorem struct_pack_into_zeros (p : List Nat) (m : Nat) (bs : List Nat) :
    struct_pack_into (p ++ List.replicate m 0) p.length bs
      = p ++ bs ++ List.replicate (m - bs.length) 0 := by
  unfold struct_pack_into
  rw [List.take_left]
  simp [List.drop_append, List.drop_replicate]

theorem flatten_blocks_length {α : Type _} (g : α → List Nat)
    (hg : ∀ x, (g x).length = 16) (l : List α) :
    ((l.map g).flatten).length = 16 * l.length := by
  induction l with
  | nil => rfl
  | cons x l ih => simp [ih, hg x]; ring

theorem flatten_blocks_get {α : Type _} (g : α → List Nat)
    (hg : ∀ x, (g x).length = 16) :
    ∀ (l : List α) (i : Nat) (h : i < l.length),
      (((l.map g).flatten).drop (16 * i)).take 16 = g (l.get ⟨i, h⟩) := by
  intro l
  induction l with
  | nil => intro i h; exact absurd h (by simp)
  | cons x l ih =>
      intro i h
      cases i with
      | zero =>
          have hx := hg x
          simp only [List.map_cons, List.flatten_cons, Nat.mul_zero, List.drop_zero]
          rw [← hx, List.take_left]
          rfl
      | succ i =>
          have hsplit : 16 * (i + 1) = (g x).length + 16 * i := by rw [hg]; ring
          simp only [List.map_cons, List.flatten_cons, hsplit, List.drop_append]
          exact ih i (by simpa using h)

theorem routing_entry_length (p : Keyspace × Nat) :
    (packWordsLE (routeWords p)).length = 16 := rfl

theorem routing_foldl (rest : List (Keyspace × Nat)) :
    ∀ (k : Nat) (pre : List Nat), pre.length = 4 + 16 * k →
    List.foldl
      (fun d p => struct_pack_into d (4 + 16 * p.1) (packWordsLE (routeWords p.2)))
      (pre ++ List.replicate (16 * rest.length) 0) (rest.enumFrom k)
    = pre ++ (rest.map (fun p => packWordsLE (routeWords p))).flatten := by
  induction rest with
  | nil => intro k pre _; simp
  | cons r rest ih =>
      intro k pre hpre
      have hstep :
          struct_pack_into (pre ++ List.replicate (16 * (r :: rest).length) 0)
              (4 + 16 * k) (packWordsLE (routeWords r))
            = (pre ++ packWordsLE (routeWords r)) ++ List.replicate (16 * rest.length) 0 := by
        rw [← hpre, struct_pack_into_zeros, routing_entry_length]
        have hlen : 16 * (r :: rest).length - 16 = 16 * rest.length := by
          simp only [List.length_cons]
          omega
        rw [hlen, List.append_assoc]
      simp only [List.enumFrom, List.foldl_cons, hstep]
      rw [ih (k + 1) (pre ++ packWordsLE (routeWords r))
        (by rw [List.length_append, hpre, routing_entry_length]; ring)]
      simp

/-- C8: for every list of routes, the Filter Routing Region bytes are
one leading little-endian word equal to the entry count followed, per
entry, by exactly the four words key-value (filter-routing tag),
key-mask (filter-routing tag), key-mask (index field) and filter table
index; the region has exactly `sizeof` bytes and the i-th entry starts
at byte `4 + 16*i`. -/
theorem claim8_routing_region_layout (routes : List (Keyspace × Nat)) :
    FilterRoutingRegion.write_subregion_to_file ⟨routes⟩
        = packWordLE routes.length
            ++ (routes.map (fun p => packWordsLE (routeWords p))).flatten ∧
    (FilterRoutingRegion.write_subregion_to_file ⟨routes⟩).length
        = FilterRoutingRegion.sizeof ⟨routes⟩ ∧
    ∀ i (h : i < routes.length),
      ((FilterRoutingRegion.write_subregion_to_file ⟨routes⟩).drop (4 + 16 * i)).take 16
        = packWordsLE (routeWords (routes.get ⟨i, h⟩)) := by
  have hmain : FilterRoutingRegion.write_subregion_to_file ⟨routes⟩
      = packWordLE routes.length
          ++ (routes.map (fun p => packWordsLE (routeWords p))).flatten := by
    unfold FilterRoutingRegion.write_subregion_to_file
    have hinit : struct_pack_into
        (List.replicate (FilterRoutingRegion.sizeof ⟨routes⟩) 0) 0
        (packWordLE routes.length)
        = packWordLE routes.length ++ List.replicate (16 * routes.length) 0 := by
      have : FilterRoutingRegion.sizeof ⟨routes⟩ = 4 + 16 * routes.length := by
        unfold FilterRoutingRegion.sizeof; ring
      rw [this]
      have h0 : struct_pack_into (List.replicate (4 + 16 * routes.length) 0) 0
          (packWordLE routes.length)
          = ([] : List Nat) ++ packWordLE routes.length
              ++ List.replicate (4 + 16 * routes.length - 4) 0 := by
        have := struct_pack_into_zeros ([] : List Nat) (4 + 16 * routes.length)
          (packWordLE routes.length)
        simpa [packWordLE_length] using this
      simpa using h0
    simp only [List.enum]
    rw [hinit]
    exact routing_foldl routes 0 (packWordLE routes.length) (by simp [packWordLE_length])
  refine ⟨hmain, ?_, ?_⟩
  · rw [hmain]
    rw [List.length_append, packWordLE_length,
      flatten_blocks_length (fun p => packWordsLE (routeWords p)) routing_entry_length]
    unfold FilterRoutingRegion.sizeof
    ring
  · intro i h
    rw [hmain]
    have hdrop : (packWordLE routes.length
        ++ (routes.map (fun p => packWordsLE (routeWords p))).flatten).drop (4 + 16 * i)
        = ((routes.map (fun p => packWordsLE (routeWords p))).flatten).drop (16 * i) := by
      have h4 : (4 : Nat) + 16 * i = (packWordLE routes.length).length + 16 * i := by
        rw [packWordLE_length]
      rw [h4]
      simp [List.drop_append]
    rw [hdrop]
    exact flatten_blocks_get (fun p => packWordsLE (routeWords p)) routing_entry_length
      routes i h

/-- Witness for C8: the first entry of a concrete two-entry region read
back from byte 4. -/
theorem claim8_witness :
    ((FilterRoutingRegion.write_subregion_to_file
        ⟨[(⟨5, 11, 22, 33⟩, 7), (⟨6, 44, 55, 66⟩, 8)]⟩).drop 4).take 16
      = packWordsLE (routeWords ((⟨5, 11, 22, 33⟩ : Keyspace), 7)) := by
  have := (claim8_routing_region_layout
    [(⟨5, 11, 22, 33⟩, 7), (⟨6, 44, 55, 66⟩, 8)]).2.2 0 (by decide)
  simpa using this

theorem packWordsLE_append (xs ys : List Nat) :
    packWordsLE (xs ++ ys) = packWordsLE xs ++ packWordsLE ys := by
  unfold packWordsLE
  rw [List.map_append, List.flatten_append]

theorem interleave_length (xs ys : List ℚ) (h : xs.length = ys.length) :
    (interleave xs ys).length = xs.length + ys.length := by
  induction xs generalizing ys with
  | nil =>
      cases ys with
      | nil => rfl
      | cons y ys => exact absurd h (by simp)
  | cons x xs ih =>
      cases ys with
      | nil => exact absurd h (by simp)
      | cons y ys =>
          have := ih ys (by simpa using h)
          simp [interleave, this]
          omega

theorem sliceAssign_zeros (p : List Nat) (m j : Nat) (xs : List Nat) :
    sliceAssign (p ++ List.replicate m 0) p.length j xs
      = p ++ xs ++
          List.replicate (p.length + m - max p.length (min j (p.length + m))) 0 := by
  unfold sliceAssign
  have hlen : (p ++ List.replicate m 0).length = p.length + m := by simp
  rw [hlen]
  have hmin : min p.length (p.length + m) = p.length := by omega
  rw [hmin, List.take_left]
  have hsplit : max p.length (min j (p.length + m))
      = p.length + (max p.length (min j (p.length + m)) - p.length) := by omega
  rw [hsplit]
  simp only [List.drop_append, List.drop_replicate]
  have hcount : m - (max p.length (min j (p.length + m)) - p.length)
      = p.length + m - max p.length (min j (p.length + m)) := by omega
  rw [hcount]
  congr 3

theorem sum_map_four_add (fs : List Filter) :
    (fs.map (fun f => 4 + f.size_words)).sum
      = 4 * fs.length + (fs.map Filter.size_words).sum := by
  induction fs with
  | nil => rfl
  | cons f fs ih => simp [ih]; ring

theorem size_words_none (w : Nat) (lt : Bool) :
    Filter.size_words (Filter.noneFilter w lt) = 0 := rfl

theorem size_words_lowpass (w : Nat) (lt : Bool) (tau : ℚ) :
    Filter.size_words (Filter.lowpassFilter w lt tau) = 2 := rfl

theorem size_words_linear (w : Nat) (lt : Bool) (num den : List ℚ) :
    Filter.size_words (Filter.linearFilter w lt num den) = 1 + (den.length - 1) * 2 := rfl

theorem packWords4_length (a b c d : Nat) : (packWordsLE [a, b, c, d]).length = 16 := rfl

theorem packWords2_length (a b : Nat) : (packWordsLE [a, b]).length = 8 := rfl

theorem write_loop_spec (E : ExternalOps) (hE : E.DenLengthOk) (dt : ℚ) :
    ∀ (fs : List Filter) (pre : List Nat) (off m : Nat) (st : List Nat × Nat),
      pre.length = 4 * off →
      4 * ((fs.map (fun f => 4 + f.size_words)).sum) ≤ m →
      List.foldlM
        (fun (st : List Nat × Nat) f => do
          let d ← f.pack_into E dt st.1 (st.2 * 4)
          pure (d, st.2 + f.size_words + 4))
        ((pre ++ List.replicate m 0, off) : List Nat × Nat) fs = some st →
      ∃ blocks m2, fs.mapM (specFilterBlock E dt) = some blocks ∧
        st.1 = pre ++ blocks.flatten ++ List.replicate m2 0 := by
  intro fs
  induction fs with
  | nil =>
      intro pre off m st hpre hm hfold
      simp only [List.foldlM_nil, pure, Option.some.injEq] at hfold
      refine ⟨[], m, rfl, ?_⟩
      rw [← hfold]
      simp
  | cons f fs ih =>
      intro pre off m st hpre hm hfold
      rw [List.foldlM_cons] at hfold
      cases hpk : Filter.pack_into E f dt (pre ++ List.replicate m 0) (off * 4) with
      | none =>
          rw [hpk] at hfold
          simp at hfold
      | some d =>
          rw [hpk] at hfold
          simp only [Option.bind_eq_bind, Option.some_bind, Option.pure_def] at hfold
          have hco : off * 4 = pre.length := by omega
          cases f with
          | noneFilter w lt =>
              simp only [Filter.pack_into, Filter.pack_data] at hpk
              rw [hco, struct_pack_into_zeros] at hpk
              have hd := Option.some.inj hpk
              rw [packWords4_length] at hd
              rw [← hd, size_words_none] at hfold
              have hm' : 4 * ((fs.map (fun g => 4 + g.size_words)).sum) ≤ m - 16 := by
                simp only [List.map_cons, List.sum_cons, size_words_none] at hm
                omega
              have hpre' :
                  (pre ++ packWordsLE [(Filter.noneFilter w lt).size_words,
                      (Filter.noneFilter w lt).method_index,
                      (Filter.noneFilter w lt).width,
                      if (Filter.noneFilter w lt).latching then 1 else 0]).length
                    = 4 * (off + 0 + 4) := by
                rw [List.length_append, packWords4_length]
                omega
              obtain ⟨blocks, m2, hmapm, hst⟩ := ih _ _ _ _ hpre' hm' hfold
              refine ⟨packWordsLE (specFilterHeader (Filter.noneFilter w lt) ++ []) :: blocks,
                m2, ?_, ?_⟩
              · rw [List.mapM_cons, hmapm]
                simp [specFilterBlock, specFilterPayload]
              · rw [hst]
                simp [specFilterHeader, filterFlags, Filter.size_words, Filter.method_index,
                  Filter.width, Filter.latching, List.append_assoc]
          | lowpassFilter w lt tau =>
              simp only [Filter.pack_into, Filter.pack_data] at hpk
              rw [hco, struct_pack_into_zeros, packWords4_length] at hpk
              have hco2 : pre.length + 16
                  = (pre ++ packWordsLE [(Filter.lowpassFilter w lt tau).size_words,
                      (Filter.lowpassFilter w lt tau).method_index,
                      (Filter.lowpassFilter w lt tau).width,
                      if (Filter.lowpassFilter w lt tau).latching then 1 else 0]).length := by
                rw [List.length_append, packWords4_length]
              rw [hco2, struct_pack_into_zeros, packWords2_length] at hpk
              have hd := Option.some.inj hpk
              rw [← hd, size_words_lowpass] at hfold
              have hm' : 4 * ((fs.map (fun g => 4 + g.size_words)).sum) ≤ m - 16 - 8 := by
                simp only [List.map_cons, List.sum_cons, size_words_lowpass] at hm
                omega
              have hpre' :
                  ((pre ++ packWordsLE [(Filter.lowpassFilter w lt tau).size_words,
                      (Filter.lowpassFilter w lt tau).method_index,
                      (Filter.lowpassFilter w lt tau).width,
                      if (Filter.lowpassFilter w lt tau).latching then 1 else 0])
                    ++ packWordsLE [value_to_fix (E.exp (-dt / tau)),
                        value_to_fix (1 - E.exp (-dt / tau))]).length
                    = 4 * (off + 2 + 4) := by
                rw [List.length_append, List.length_append, packWords4_length,
                  packWords2_length]
                omega
              obtain ⟨blocks, m2, hmapm, hst⟩ := ih _ _ _ _ hpre' hm' hfold
              refine ⟨packWordsLE (specFilterHeader (Filter.lowpassFilter w lt tau)
                  ++ [value_to_fix (E.exp (-dt / tau)),
                      value_to_fix (1 - E.exp (-dt / tau))]) :: blocks, m2, ?_, ?_⟩
              · rw [List.mapM_cons, hmapm]
                simp [specFilterBlock, specFilterPayload]
              · rw [hst]
                simp [packWordsLE, specFilterHeader, filterFlags, Filter.size_words,
                  Filter.method_index, Filter.width, Filter.latching, List.append_assoc]
          | linearFilter w lt num den =>
              simp only [Filter.pack_into, Filter.pack_data] at hpk
              rw [hco, struct_pack_into_zeros, packWords4_length] at hpk
              rcases hc2d : E.cont2discrete num den dt with ⟨b, a⟩
              rw [hc2d] at hpk
              cases b with
              | nil => simp at hpk
              | cons b0 btail =>
                cases a with
                | nil => simp at hpk
                | cons a0 atail =>
                  by_cases hb0 : b0 = 0
                  · by_cases hlen2 : btail.length = atail.length
                    · simp only [hb0, hlen2, if_true, if_pos rfl] at hpk
                      have hco2 : pre.length + 16
                          = (pre ++ packWordsLE [(Filter.linearFilter w lt num den).size_words,
                              (Filter.linearFilter w lt num den).method_index,
                              (Filter.linearFilter w lt num den).width,
                              if (Filter.linearFilter w lt num den).latching then 1
                              else 0]).length := by
                        rw [List.length_append, packWords4_length]
                      rw [hco2, struct_pack_into_zeros, packWordLE_length] at hpk
                      have hco3 : (pre ++ packWordsLE [(Filter.linearFilter w lt num den).size_words,
                              (Filter.linearFilter w lt num den).method_index,
                              (Filter.linearFilter w lt num den).width,
                              if (Filter.linearFilter w lt num den).latching then 1
                              else 0]).length + 4
                          = ((pre ++ packWordsLE [(Filter.linearFilter w lt num den).size_words,
                              (Filter.linearFilter w lt num den).method_index,
                              (Filter.linearFilter w lt num den).width,
                              if (Filter.linearFilter w lt num den).latching then 1 else 0])
                              ++ packWordLE (den.length - 1)).length := by
                        simp only [List.length_append, packWords4_length, packWordLE_length]
                      rw [hco3] at hpk
                      rw [sliceAssign_zeros] at hpk
                      have hd := Option.some.inj hpk
                      have hP3len : ((pre ++ packWordsLE
                              [(Filter.linearFilter w lt num den).size_words,
                              (Filter.linearFilter w lt num den).method_index,
                              (Filter.linearFilter w lt num den).width,
                              if (Filter.linearFilter w lt num den).latching then 1 else 0])
                              ++ packWordLE (den.length - 1)).length = pre.length + 20 := by
                        rw [List.length_append, List.length_append, packWords4_length,
                          packWordLE_length]
                      have halen : atail.length = den.length - 1 := by
                        have ha := hE num den dt
                        rw [hc2d] at ha
                        simp only [List.length_cons] at ha
                        omega
                      have hxs : (packWordsLE (np_to_fix
                            (interleave (atail.map fun x => -x) btail))).length
                          = (den.length - 1) * 8 := by
                        rw [packWordsLE_length]
                        unfold np_to_fix
                        rw [List.length_map,
                          interleave_length _ _ (by simpa using hlen2.symm),
                          List.length_map]
                        omega
                      rw [← hd, hP3len] at hfold
                      have hm2 : 4 * (((Filter.linearFilter w lt num den) :: fs).map
                            (fun g => 4 + g.size_words)).sum ≤ m := hm
                      simp only [List.map_cons, List.sum_cons, size_words_linear] at hm2
                      have hpre' : ((pre ++ packWordsLE
                              [(Filter.linearFilter w lt num den).size_words,
                              (Filter.linearFilter w lt num den).method_index,
                              (Filter.linearFilter w lt num den).width,
                              if (Filter.linearFilter w lt num den).latching then 1 else 0])
                              ++ packWordLE (den.length - 1)
                              ++ packWordsLE (np_to_fix
                                  (interleave (atail.map fun x => -x) btail))).length
                          = 4 * (off + (Filter.linearFilter w lt num den).size_words + 4) := by
                        rw [List.length_append, hP3len, hxs, size_words_linear]
                        omega
                      obtain ⟨blocks, m2, hmapm, hst⟩ := ih _ _ _ _ hpre' (by omega) hfold
                      refine ⟨packWordsLE (specFilterHeader (Filter.linearFilter w lt num den)
                          ++ ((den.length - 1) :: np_to_fix
                              (interleave (atail.map fun x => -x) btail))) :: blocks,
                        m2, ?_, ?_⟩
                      · rw [List.mapM_cons, hmapm]
                        simp [specFilterBlock, specFilterPayload, hc2d, hb0, hlen2]
                      · rw [hst]
                        simp [packWordsLE, specFilterHeader, filterFlags, Filter.size_words,
                          Filter.method_index, Filter.width, Filter.latching,
                          List.append_assoc, np_to_fix]
                    · simp [hlen2] at hpk
                  · simp [hb0] at hpk

/-- C2: for every list of filters the Filter Region written to the
output starts with one little-endian word equal to the filter count
followed, for each filter in table order, by its 4-word header
(words-following, method-index, width, flags with bit 0 = latching) and
its payload words (whenever the write succeeds, and with the external
discretization returning denominators of the input length); in
particular encoding one None filter (width 4, latching false) and one
Lowpass filter (width 4, latching true) yields leading word 2, headers
with method indices 0 and 1, and payload word counts 0 and 2. -/
theorem claim2_filter_region_layout :
    (∀ (E : ExternalOps), E.DenLengthOk → ∀ (r : FilterRegion) (out : List Nat),
      r.write_subregion_to_file E = some out →
      ∃ exp, specRegionLayout E r.dt r.filters = some exp ∧ exp <+: out) ∧
    ∃ v1 v2 : Nat, FilterRegion.write_subregion_to_file extOps0
        ⟨[Filter.noneFilter 4 false, Filter.lowpassFilter 4 true (1/100)], 1/1000⟩
      = some (packWordsLE [2, 0, 0, 4, 0, 2, 1, 4, 1, v1, v2]) := by
  constructor
  · intro E hE r out hw
    unfold FilterRegion.write_subregion_to_file at hw
    have hsz : r.sizeof = 4 + 4 * ((r.filters.map (fun f => 4 + f.size_words)).sum) := by
      unfold FilterRegion.sizeof
      rw [sum_map_four_add]
      ring
    have hdata0 : struct_pack_into (List.replicate r.sizeof 0) 0
        (packWordLE r.filters.length)
        = packWordLE r.filters.length
            ++ List.replicate (4 * ((r.filters.map (fun f => 4 + f.size_words)).sum)) 0 := by
      rw [hsz]
      have h0 := struct_pack_into_zeros ([] : List Nat)
        (4 + 4 * ((r.filters.map (fun f => 4 + f.size_words)).sum))
        (packWordLE r.filters.length)
      simpa [packWordLE_length] using h0
    rw [hdata0] at hw
    simp only [] at hw
    cases hfold : List.foldlM
        (fun (st : List Nat × Nat) f => do
          let d ← f.pack_into E r.dt st.1 (st.2 * 4)
          pure (d, st.2 + f.size_words + 4))
        ((packWordLE r.filters.length
            ++ List.replicate (4 * ((r.filters.map (fun f => 4 + f.size_words)).sum)) 0, 1) :
          List Nat × Nat) r.filters with
    | none =>
        rw [hfold] at hw
        simp at hw
    | some st =>
        rw [hfold] at hw
        simp only [Option.bind_eq_bind, Option.some_bind, Option.pure_def,
          Option.some.injEq] at hw
        obtain ⟨blocks, m2, hmapm, hst⟩ := write_loop_spec E hE r.dt r.filters
          (packWordLE r.filters.length) 1
          (4 * ((r.filters.map (fun f => 4 + f.size_words)).sum)) st
          (by rw [packWordLE_length]) le_rfl hfold
        refine ⟨packWordLE r.filters.length ++ blocks.flatten, ?_, ?_⟩
        · unfold specRegionLayout
          rw [hmapm]
          rfl
        · refine ⟨List.replicate m2 0, ?_⟩
          rw [← hw, hst]
  · exact ⟨_, _, rfl⟩

/-- Witness for C2's general clause: a one-filter region whose
discretization is shape-correct satisfies the prefix property at a
concrete input. -/
theorem claim2_witness :
    ∃ exp, specRegionLayout extOps0 (1/1000) [Filter.noneFilter 4 false] = some exp ∧
      exp <+: packWordsLE [1, 0, 0, 4, 0] := by
  have hden : extOps0.DenLengthOk := by
    intro num den dt
    simp [extOps0]
  have happ := (claim2_filter_region_layout).1 extOps0 hden
    ⟨[Filter.noneFilter 4 false], 1/1000⟩ (packWordsLE [1, 0, 0, 4, 0]) rfl
  simpa using happ

theorem isPrefix_getElem? {α : Type _} {l1 l2 : List α} (h : l1 <+: l2) (k : Nat)
    (hk : k < l1.length) : l2[k]? = l1[k]? := by
  obtain ⟨t, rfl⟩ := h
  rw [List.getElem?_append, if_pos hk]

theorem findIdx?_isPrefix_stable {α : Type _} {l1 l2 : List α} {p : α → Bool} {j : Nat}
    (h : l1 <+: l2) (hf : l1.findIdx? p = some j) : l2.findIdx? p = some j := by
  obtain ⟨t, rfl⟩ := h
  rw [List.findIdx?_append, hf]
  rfl

theorem mfr_false_aux (w : Option Nat) :
    ∀ (rest : List (Signal × ReceptionParams)) (fs : List Filter)
      (rs : List (Keyspace × Nat)),
      rest.foldl (mfrStep false w) (fs, rs)
        = (fs ++ rest.map (fun sr => from_parameters sr.1 sr.2 w),
           rs ++ List.zip (rest.map (fun sr => sr.1.keyspace))
             (List.range' fs.length rest.length)) := by
  intro rest
  induction rest with
  | nil => intro fs rs; simp
  | cons sr rest ih =>
      intro fs rs
      rw [List.foldl_cons]
      show List.foldl (mfrStep false w) (fs ++ [from_parameters sr.1 sr.2 w],
        rs ++ [(sr.1.keyspace, fs.length)]) rest = _
      rw [ih]
      rw [List.length_cons, List.range'_succ fs.length rest.length 1]
      simp [List.append_assoc]

theorem mfr_true_aux (w : Option Nat) :
    ∀ (rest : List (Signal × ReceptionParams)) (fs : List Filter)
      (rs : List (Keyspace × Nat)), fs.Nodup →
      ∃ fs2 rs2,
        rest.foldl (mfrStep true w) (fs, rs) = (fs2, rs2) ∧
        rs2.length = rs.length + rest.length ∧
        fs2.Nodup ∧ fs <+: fs2 ∧ rs <+: rs2 ∧
        (∀ f ∈ fs2, f ∈ fs ∨ f ∈ rest.map (fun sr => from_parameters sr.1 sr.2 w)) ∧
        (∀ i (hi : i < rest.length), ∃ j,
          rs2[rs.length + i]? = some ((rest.get ⟨i, hi⟩).1.keyspace, j) ∧
          fs2.findIdx? (fun g =>
            from_parameters (rest.get ⟨i, hi⟩).1 (rest.get ⟨i, hi⟩).2 w = g)
            = some j ∧
          fs2[j]? = some (from_parameters (rest.get ⟨i, hi⟩).1
            (rest.get ⟨i, hi⟩).2 w)) := by
  intro rest
  induction rest with
  | nil =>
      intro fs rs hnd
      exact ⟨fs, rs, rfl, by simp, hnd, List.prefix_refl fs, List.prefix_refl rs,
        fun f hf => Or.inl hf, fun i hi => absurd hi (by simp)⟩
  | cons sr rest ih =>
      intro fs rs hnd
      rw [List.foldl_cons]
      cases hfi : fs.findIdx? (fun g => from_parameters sr.1 sr.2 w = g) with
      | some idx =>
          have hstep : mfrStep true w (fs, rs) sr
              = (fs, rs ++ [(sr.1.keyspace, idx)]) := by
            simp [mfrStep, hfi]
          rw [hstep]
          obtain ⟨fs2, rs2, heq, hlen, hnd2, hfp, hrp, hmem, hidx⟩ :=
            ih fs (rs ++ [(sr.1.keyspace, idx)]) hnd
          refine ⟨fs2, rs2, heq, ?_, hnd2, hfp, ?_, ?_, ?_⟩
          · rw [hlen]
            simp
            omega
          · exact (List.prefix_append rs _).trans hrp
          · intro f hf
            rcases hmem f hf with h | h
            · exact Or.inl h
            · right
              simp only [List.map_cons]
              exact List.mem_cons_of_mem _ h
          · intro i hi
            cases i with
            | zero =>
                refine ⟨idx, ?_, ?_, ?_⟩
                · have hlt : rs.length + 0 < (rs ++ [(sr.1.keyspace, idx)]).length := by
                    simp
                  rw [isPrefix_getElem? hrp _ hlt]
                  simp
                · exact findIdx?_isPrefix_stable hfp hfi
                · have h1 := hfi
                  rw [List.findIdx?_eq_some_iff_getElem] at h1
                  obtain ⟨hj, hp, _⟩ := h1
                  have hlt2 : idx < fs.length := hj
                  rw [isPrefix_getElem? hfp _ hlt2, List.getElem?_eq_getElem hlt2]
                  simp only [decide_eq_true_eq] at hp
                  rw [← hp]
                  rfl
            | succ i =>
                have hi2 : i < rest.length := by simpa using hi
                obtain ⟨j, h1, h2, h3⟩ := hidx i hi2
                refine ⟨j, ?_, ?_, ?_⟩
                · have : rs.length + (i + 1)
                      = (rs ++ [(sr.1.keyspace, idx)]).length + i := by
                    simp
                    omega
                  rw [this]
                  exact h1
                · exact h2
                · exact h3
      | none =>
          have hnotmem : from_parameters sr.1 sr.2 w ∉ fs := by
            rw [List.findIdx?_eq_none_iff] at hfi
            intro hmem0
            have := hfi _ hmem0
            simp at this
          have hstep : mfrStep true w (fs, rs) sr
              = (fs ++ [from_parameters sr.1 sr.2 w],
                 rs ++ [(sr.1.keyspace, fs.length)]) := by
            simp [mfrStep, hfi]
          rw [hstep]
          have hnd1 : (fs ++ [from_parameters sr.1 sr.2 w]).Nodup := by
            simp [List.nodup_append, hnd, hnotmem]
          obtain ⟨fs2, rs2, heq, hlen, hnd2, hfp, hrp, hmem, hidx⟩ :=
            ih (fs ++ [from_parameters sr.1 sr.2 w])
              (rs ++ [(sr.1.keyspace, fs.length)]) hnd1
          refine ⟨fs2, rs2, heq, ?_, hnd2, ?_, ?_, ?_, ?_⟩
          · rw [hlen]
            simp
            omega
          · exact (List.prefix_append fs _).trans hfp
          · exact (List.prefix_append rs _).trans hrp
          · intro f hf
            rcases hmem f hf with h | h
            · rcases List.mem_append.mp h with h2 | h2
              · exact Or.inl h2
              · right
                simp only [List.mem_singleton] at h2
                simp [h2]
            · right
              simp only [List.map_cons]
              exact List.mem_cons_of_mem _ h
          · intro i hi
            cases i with
            | zero =>
                refine ⟨fs.length, ?_, ?_, ?_⟩
                · have hlt : rs.length + 0 < (rs ++ [(sr.1.keyspace, fs.length)]).length := by
                    simp
                  rw [isPrefix_getElem? hrp _ hlt]
                  simp
                · have hsing : ([from_parameters sr.1 sr.2 w].findIdx?
                      (fun g => from_parameters sr.1 sr.2 w = g)) = some 0 := by
                    simp [List.findIdx?_cons]
                  have happ : ((fs ++ [from_parameters sr.1 sr.2 w]).findIdx?
                      (fun g => from_parameters sr.1 sr.2 w = g)) = some fs.length := by
                    rw [List.findIdx?_append, hfi, hsing]
                    simp
                  exact findIdx?_isPrefix_stable hfp happ
                · have hlt2 : fs.length < (fs ++ [from_parameters sr.1 sr.2 w]).length := by
                    simp
                  rw [isPrefix_getElem? hfp _ hlt2]
                  simp
            | succ i =>
                have hi2 : i < rest.length := by simpa using hi
                obtain ⟨j, h1, h2, h3⟩ := hidx i hi2
                refine ⟨j, ?_, ?_, ?_⟩
                · have : rs.length + (i + 1)
                      = (rs ++ [(sr.1.keyspace, fs.length)]).length + i := by
                    simp
                    omega
                  rw [this]
                  exact h1
                · exact h2
                · exact h3

/-- C3: with deduplication disabled, `make_filter_regions` always
appends a new filter table entry and records one `(keyspace, index)`
route per input pair in emission order (indices 0, 1, 2, ...); with
deduplication enabled, the table is duplicate-free, contains only
constructed filters, and each input pair's route carries the index of
the first filter in the table exactly equal to the filter constructed
for it (equality is the structural, no-tolerance equality of the
embedding). -/
theorem claim3_make_filter_regions_dedup (specs : List (Signal × ReceptionParams))
    (w : Option Nat) :
    (make_filter_regions specs false w
      = (specs.map (fun sr => from_parameters sr.1 sr.2 w),
         List.zip (specs.map (fun sr => sr.1.keyspace)) (List.range specs.length))) ∧
    ((make_filter_regions specs true w).2.length = specs.length ∧
     (make_filter_regions specs true w).1.Nodup ∧
     (∀ f ∈ (make_filter_regions specs true w).1,
        f ∈ specs.map (fun sr => from_parameters sr.1 sr.2 w)) ∧
     (∀ i (hi : i < specs.length), ∃ j,
        (make_filter_regions specs true w).2[i]?
          = some ((specs.get ⟨i, hi⟩).1.keyspace, j) ∧
        (make_filter_regions specs true w).1.findIdx?
          (fun g => from_parameters (specs.get ⟨i, hi⟩).1 (specs.get ⟨i, hi⟩).2 w = g)
          = some j ∧
        (make_filter_regions specs true w).1[j]?
          = some (from_parameters (specs.get ⟨i, hi⟩).1 (specs.get ⟨i, hi⟩).2 w))) := by
  constructor
  · unfold make_filter_regions
    rw [mfr_false_aux w specs [] []]
    simp [List.range_eq_range']
  · obtain ⟨fs2, rs2, heq, hlen, hnd2, _, _, hmem, hidx⟩ :=
      mfr_true_aux w specs [] [] List.nodup_nil
    unfold make_filter_regions
    rw [heq]
    refine ⟨by simpa using hlen, hnd2, ?_, ?_⟩
    · intro f hf
      rcases hmem f hf with h | h
      · exact absurd h (List.not_mem_nil f)
      · exact h
    · intro i hi
      obtain ⟨j, h1, h2, h3⟩ := hidx i hi
      exact ⟨j, by simpa using h1, h2, h3⟩

/-- Witness for C3 at a concrete input: two reception specs with equal
filters and one with a different time constant, deduplicated. -/
theorem claim3_witness :
    ∃ j, (make_filter_regions
        [(⟨⟨1, 0, 0, 0⟩, false⟩, ⟨FilterSpec.lowpassSpec (1/100), 4⟩),
         (⟨⟨2, 0, 0, 0⟩, true⟩, ⟨FilterSpec.lowpassSpec (1/100), 4⟩)] true none).2[0]?
      = some (⟨1, 0, 0, 0⟩, j) := by
  obtain ⟨j, h1, _, _⟩ := (claim3_make_filter_regions_dedup
    [(⟨⟨1, 0, 0, 0⟩, false⟩, ⟨FilterSpec.lowpassSpec (1/100), 4⟩),
     (⟨⟨2, 0, 0, 0⟩, true⟩, ⟨FilterSpec.lowpassSpec (1/100), 4⟩)] none).2.2.2.2 0 (by decide)
  exact ⟨j, h1⟩

theorem foldr_min_le_init (l : List Nat) (n : Nat) : l.foldr min n ≤ n := by
  induction l with
  | nil => exact le_rfl
  | cons x l ih =>
      calc (x :: l).foldr min n ≤ l.foldr min n := min_le_right _ _
        _ ≤ n := ih

theorem foldr_min_le_mem {l : List Nat} {x : Nat} (h : x ∈ l) (n : Nat) :
    l.foldr min n ≤ x := by
  induction l with
  | nil => exact absurd h (List.not_mem_nil x)
  | cons y l ih =>
      rcases List.mem_cons.mp h with rfl | h2
      · exact min_le_left _ _
      · calc (y :: l).foldr min n ≤ l.foldr min n := min_le_right _ _
          _ ≤ x := ih h2

theorem foldr_min_eq_zero {l : List Nat} {n : Nat} (h : l.foldr min n = 0) :
    n = 0 ∨ ∃ x ∈ l, x = 0 := by
  induction l with
  | nil => exact Or.inl h
  | cons y l ih =>
      rw [List.foldr_cons, Nat.min_eq_zero_iff] at h
      rcases h with h | h
      · exact Or.inr ⟨y, List.mem_cons_self y l, h⟩
      · rcases ih h with h2 | ⟨x, hx, hx0⟩
        · exact Or.inl h2
        · exact Or.inr ⟨x, List.mem_cons_of_mem y hx, hx0⟩

theorem partitionAux_cover (cs : List (Constraint × UsageFn)) (stop : Nat) :
    ∀ (fuel cursor : Nat) (chunks : List (Nat × Nat)),
      stop - cursor ≤ fuel → cursor ≤ stop →
      partitionAux cs stop fuel cursor = .ok chunks →
      chunksCover cursor stop chunks := by
  intro fuel
  induction fuel with
  | zero =>
      intro cursor chunks hf hc hok
      simp only [partitionAux, Except.ok.injEq] at hok
      rw [← hok]
      show cursor = stop
      omega
  | succ fuel ih =>
      intro cursor chunks hf hc hok
      rw [partitionAux] at hok
      by_cases hstop : stop ≤ cursor
      · rw [if_pos hstop] at hok
        simp only [Except.ok.injEq] at hok
        rw [← hok]
        show cursor = stop
        omega
      · rw [if_neg hstop] at hok
        simp only [] at hok
        by_cases h0 : (cs.map (fun cf =>
            maxChunk cf.2 cf.1.max_usage cursor (stop - cursor))).foldr min (stop - cursor) = 0
        · rw [if_pos h0] at hok
          cases hfind : cs.find? (fun cf =>
              maxChunk cf.2 cf.1.max_usage cursor (stop - cursor) == 0) with
          | none => rw [hfind] at hok; exact absurd hok (by simp)
          | some cf => rw [hfind] at hok; exact absurd hok (by simp)
        · rw [if_neg h0] at hok
          cases hrec : partitionAux cs stop fuel (cursor +
              (cs.map (fun cf => maxChunk cf.2 cf.1.max_usage cursor (stop - cursor))).foldr
                min (stop - cursor)) with
          | error e =>
              rw [hrec] at hok
              exact absurd hok (by simp [Except.map])
          | ok rest =>
              rw [hrec] at hok
              simp only [Except.map, Except.ok.injEq] at hok
              rw [← hok]
              have hle := foldr_min_le_init (cs.map (fun cf =>
                maxChunk cf.2 cf.1.max_usage cursor (stop - cursor))) (stop - cursor)
              have h1 : 1 ≤ (cs.map (fun cf =>
                  maxChunk cf.2 cf.1.max_usage cursor (stop - cursor))).foldr
                    min (stop - cursor) := Nat.pos_of_ne_zero h0
              refine ⟨rfl, by omega, by omega, ?_⟩
              exact ih _ rest (by omega) (by omega) hrec

/-- C4: whenever partitioning succeeds, the emitted chunks are ordered
left to right, each has positive length, consecutive chunks are
contiguous and non-overlapping, every chunk is contained in the input
range, and their union is exactly the input range `[start, stop)`
(proved for all usage estimators, monotone or not). -/
theorem claim4_partition_coverage (cs : List (Constraint × UsageFn)) (start stop : Nat)
    (hss : start ≤ stop) (chunks : List (Nat × Nat))
    (hok : partition cs start stop = .ok chunks) :
    chunksCover start stop chunks :=
  partitionAux_cover cs stop (stop - start) start chunks le_rfl hss hok

/-- Witness for C4: a concrete partition that succeeds in one chunk
covers its range. -/
theorem claim4_witness : chunksCover 0 2 [(0, 2)] :=
  claim4_partition_coverage [(⟨50, 1⟩, fun _ _ => 0)] 0 2 (by omega) [(0, 2)] (by
    have hmc : maxChunk (fun _ _ => 0) (Constraint.max_usage ⟨50, 1⟩) 0 2 = 2 := by
      unfold maxChunk
      apply Nat.findGreatest_eq
      norm_num [Constraint.max_usage]
    unfold partition
    show partitionAux _ 2 (1 + 1) 0 = _
    rw [partitionAux]
    simp [hmc, partitionAux, Except.map])

theorem partitionAux_error (cs : List (Constraint × UsageFn)) (stop : Nat) :
    ∀ (fuel cursor : Nat) (e : UnpartitionableError),
      partitionAux cs stop fuel cursor = .error e →
      cursor ≤ e.cursor ∧ e.cursor < stop ∧
      ∃ f, (e.constraint, f) ∈ cs ∧
        ¬(f e.cursor (e.cursor + 1) ≤ e.constraint.max_usage) := by
  intro fuel
  induction fuel with
  | zero =>
      intro cursor e h
      exact absurd h (by simp [partitionAux])
  | succ fuel ih =>
      intro cursor e h
      rw [partitionAux] at h
      by_cases hstop : stop ≤ cursor
      · rw [if_pos hstop] at h
        exact absurd h (by simp)
      · rw [if_neg hstop] at h
        simp only [] at h
        by_cases h0 : (cs.map (fun cf =>
            maxChunk cf.2 cf.1.max_usage cursor (stop - cursor))).foldr min (stop - cursor) = 0
        · rw [if_pos h0] at h
          cases hfind : cs.find? (fun cf =>
              maxChunk cf.2 cf.1.max_usage cursor (stop - cursor) == 0) with
          | some cf =>
              rw [hfind] at h
              simp only [Except.error.injEq] at h
              have hmem := List.mem_of_find?_eq_some hfind
              have hp := List.find?_some hfind
              simp only [beq_iff_eq] at hp
              unfold maxChunk at hp
              have hnp : ¬(cf.2 cursor (cursor + 1) ≤ cf.1.max_usage) := by
                have h2 := Nat.findGreatest_eq_zero_iff.mp hp
                exact h2 (by omega) (by omega)
              rw [← h]
              exact ⟨le_refl cursor, by show cursor < stop; omega, cf.2,
                by simpa using hmem, hnp⟩
          | none =>
              exfalso
              rcases foldr_min_eq_zero h0 with hn | ⟨x, hx, hx0⟩
              · omega
              · rcases List.mem_map.mp hx with ⟨cf, hcf, rfl⟩
                have hnone := List.find?_eq_none.mp hfind cf hcf
                simp [hx0] at hnone
        · rw [if_neg h0] at h
          cases hrec : partitionAux cs stop fuel (cursor +
              (cs.map (fun cf => maxChunk cf.2 cf.1.max_usage cursor (stop - cursor))).foldr
                min (stop - cursor)) with
          | error e2 =>
              rw [hrec] at h
              simp only [Except.map, Except.error.injEq] at h
              obtain ⟨h1, h2, h3⟩ := ih _ e2 hrec
              rw [← h]
              exact ⟨by omega, h2, h3⟩
          | ok rest =>
              rw [hrec] at h
              exact absurd h (by simp [Except.map])

theorem partitionAux_length1_ok (cs : List (Constraint × UsageFn)) (stop : Nat) :
    ∀ (fuel cursor : Nat) (chunks : List (Nat × Nat)),
      (∀ cf ∈ cs, MonoUsage cf.2) →
      partitionAux cs stop fuel cursor = .ok chunks →
      ∀ c ∈ chunks, ∀ cf ∈ cs, cf.2 c.1 (c.1 + 1) ≤ cf.1.max_usage := by
  intro fuel
  induction fuel with
  | zero =>
      intro cursor chunks hmono h
      simp only [partitionAux, Except.ok.injEq] at h
      rw [← h]
      intro c hc
      exact absurd hc (List.not_mem_nil c)
  | succ fuel ih =>
      intro cursor chunks hmono h
      rw [partitionAux] at h
      by_cases hstop : stop ≤ cursor
      · rw [if_pos hstop] at h
        simp only [Except.ok.injEq] at h
        rw [← h]
        intro c hc
        exact absurd hc (List.not_mem_nil c)
      · rw [if_neg hstop] at h
        simp only [] at h
        by_cases h0 : (cs.map (fun cf =>
            maxChunk cf.2 cf.1.max_usage cursor (stop - cursor))).foldr min (stop - cursor) = 0
        · rw [if_pos h0] at h
          cases hfind : cs.find? (fun cf =>
              maxChunk cf.2 cf.1.max_usage cursor (stop - cursor) == 0) with
          | none => rw [hfind] at h; exact absurd h (by simp)
          | some cf => rw [hfind] at h; exact absurd h (by simp)
        · rw [if_neg h0] at h
          cases hrec : partitionAux cs stop fuel (cursor +
              (cs.map (fun cf => maxChunk cf.2 cf.1.max_usage cursor (stop - cursor))).foldr
                min (stop - cursor)) with
          | error e2 =>
              rw [hrec] at h
              exact absurd h (by simp [Except.map])
          | ok rest =>
              rw [hrec] at h
              simp only [Except.map, Except.ok.injEq] at h
              rw [← h]
              intro c hc cf hcf
              rcases List.mem_cons.mp hc with rfl | hc2
              · have hmemmap : maxChunk cf.2 cf.1.max_usage cursor (stop - cursor)
                    ∈ cs.map (fun cf => maxChunk cf.2 cf.1.max_usage cursor (stop - cursor)) :=
                  List.mem_map_of_mem _ hcf
                have hge : 1 ≤ maxChunk cf.2 cf.1.max_usage cursor (stop - cursor) := by
                  have := foldr_min_le_mem hmemmap (stop - cursor)
                  omega
                have hP : cf.2 cursor (cursor +
                    maxChunk cf.2 cf.1.max_usage cursor (stop - cursor)) ≤
                    cf.1.max_usage := by
                  have h9 : maxChunk cf.2 cf.1.max_usage cursor (stop - cursor) ≠ 0 := by
                    omega
                  unfold maxChunk at h9 ⊢
                  exact Nat.findGreatest_of_ne_zero rfl h9
                have hm := hmono cf hcf cursor 1
                  (maxChunk cf.2 cf.1.max_usage cursor (stop - cursor)) hge
                exact le_trans hm hP
              · exact ih _ rest hmono hrec c hc2 cf hcf

/-- C5: the partitioner fails with an Unpartitionable error exactly when
even a length-1 chunk exceeds some constraint's effective budget
(maximum times target) at a reached cursor: every error carries a
cursor inside the range and a constraint of the mapping whose
length-1-chunk usage exceeds its budget; conversely, under monotone
estimators, a successful partition's every chunk start admits a
length-1 chunk within every constraint's budget; and concretely,
constraint (50, 1.0) with usage length+100 makes any non-empty range
unpartitionable with the error at the range's start. -/
theorem claim5_unpartitionable_error :
    (∀ (cs : List (Constraint × UsageFn)) (start stop : Nat) (e : UnpartitionableError),
      partition cs start stop = .error e →
      start ≤ e.cursor ∧ e.cursor < stop ∧
      ∃ f, (e.constraint, f) ∈ cs ∧
        ¬(f e.cursor (e.cursor + 1) ≤ e.constraint.max_usage)) ∧
    (∀ (cs : List (Constraint × UsageFn)) (start stop : Nat) (chunks : List (Nat × Nat)),
      (∀ cf ∈ cs, MonoUsage cf.2) →
      partition cs start stop = .ok chunks →
      ∀ c ∈ chunks, ∀ cf ∈ cs, cf.2 c.1 (c.1 + 1) ≤ cf.1.max_usage) ∧
    (∀ start stop : Nat, start < stop →
      partition [(⟨50, 1⟩, fun a b => ((b : ℚ) - (a : ℚ)) + 100)] start stop
        = .error ⟨⟨50, 1⟩, start⟩) := by
  refine ⟨?_, ?_, ?_⟩
  · intro cs start stop e h
    exact partitionAux_error cs stop (stop - start) start e h
  · intro cs start stop chunks hmono h
    exact partitionAux_length1_ok cs stop (stop - start) start chunks hmono h
  · intro start stop hlt
    have hmc : maxChunk (fun a b => ((b : ℚ) - (a : ℚ)) + 100)
        (Constraint.max_usage ⟨50, 1⟩) start (stop - start) = 0 := by
      unfold maxChunk
      rw [Nat.findGreatest_eq_zero_iff]
      intro m _ _ hle
      rw [Constraint.max_usage] at hle
      push_cast at hle
      have hm0 : (0 : ℚ) ≤ (m : ℚ) := Nat.cast_nonneg m
      nlinarith
    unfold partition
    obtain ⟨fuel, hfuel⟩ : ∃ fuel, stop - start = fuel + 1 := ⟨stop - start - 1, by omega⟩
    rw [hfuel, partitionAux]
    rw [if_neg (by omega)]
    simp [hmc]

/-- Witness for C5 at concrete inputs: the concrete unpartitionable
instance, its error characterization, and the length-1 admissibility of
a successful concrete partition. -/
theorem claim5_witness :
    (partition [(⟨50, 1⟩, fun a b => ((b : ℚ) - (a : ℚ)) + 100)] 0 3
      = .error ⟨⟨50, 1⟩, 0⟩) ∧
    (0 ≤ (0 : Nat) ∧ 0 < 3 ∧
      ∃ f : UsageFn, ((⟨50, 1⟩ : Constraint), f)
          ∈ [((⟨50, 1⟩ : Constraint),
              (fun a b => ((b : ℚ) - (a : ℚ)) + 100 : UsageFn))] ∧
        ¬(f 0 (0 + 1) ≤ Constraint.max_usage ⟨50, 1⟩)) ∧
    (∀ c ∈ [((0 : Nat), (2 : Nat))],
      ∀ cf ∈ [((⟨50, 1⟩ : Constraint), (fun _ _ => 0 : UsageFn))],
        cf.2 c.1 (c.1 + 1) ≤ cf.1.max_usage) := by
  have hc := claim5_unpartitionable_error.2.2 0 3 (by omega)
  refine ⟨hc, ?_, ?_⟩
  · exact claim5_unpartitionable_error.1
      [(⟨50, 1⟩, fun a b => ((b : ℚ) - (a : ℚ)) + 100)] 0 3 ⟨⟨50, 1⟩, 0⟩ hc
  · refine claim5_unpartitionable_error.2.1 [(⟨50, 1⟩, fun _ _ => 0)] 0 2 [(0, 2)] ?_ ?_
    · intro cf hcf
      simp only [List.mem_singleton] at hcf
      rw [hcf]
      intro cursor a b _
      exact le_rfl
    · have hmc : maxChunk (fun _ _ => 0) (Constraint.max_usage ⟨50, 1⟩) 0 2 = 2 := by
        unfold maxChunk
        apply Nat.findGreatest_eq
        norm_num [Constraint.max_usage]
      unfold partition
      show partitionAux _ 2 (1 + 1) 0 = _
      rw [partitionAux]
      simp [hmc, partitionAux, Except.map]

theorem mem_firstOccsAux {α : Type _} [DecidableEq α] :
    ∀ (l seen : List α) (x : α), x ∈ firstOccsAux seen l ↔ x ∈ l ∧ x ∉ seen := by
  intro l
  induction l with
  | nil => intro seen x; simp [firstOccsAux]
  | cons y l ih =>
      intro seen x
      by_cases hy : y ∈ seen
      · rw [firstOccsAux, if_pos hy, ih]
        constructor
        · rintro ⟨h1, h2⟩
          exact ⟨List.mem_cons_of_mem y h1, h2⟩
        · rintro ⟨h1, h2⟩
          rcases List.mem_cons.mp h1 with rfl | h3
          · exact absurd hy h2
          · exact ⟨h3, h2⟩
      · rw [firstOccsAux, if_neg hy]
        constructor
        · intro h
          rcases List.mem_cons.mp h with rfl | h2
          · exact ⟨List.mem_cons_self x l, hy⟩
          · rw [ih] at h2
            refine ⟨List.mem_cons_of_mem y h2.1, fun hx => h2.2 ?_⟩
            exact List.mem_append.mpr (Or.inl hx)
        · rintro ⟨h1, h2⟩
          rcases List.mem_cons.mp h1 with rfl | h3
          · exact List.mem_cons_self x _
          · by_cases hxy : x = y
            · rw [hxy]; exact List.mem_cons_self y _
            · refine List.mem_cons_of_mem y ((ih _ x).mpr ⟨h3, fun hx => ?_⟩)
              rcases List.mem_append.mp hx with h4 | h4
              · exact h2 h4
              · simp only [List.mem_singleton] at h4
                exact hxy h4

theorem nodup_append_firstOccsAux {α : Type _} [DecidableEq α] :
    ∀ (l seen : List α), seen.Nodup → (seen ++ firstOccsAux seen l).Nodup := by
  intro l
  induction l with
  | nil => intro seen h; simpa [firstOccsAux] using h
  | cons y l ih =>
      intro seen h
      by_cases hy : y ∈ seen
      · rw [firstOccsAux, if_pos hy]
        exact ih seen h
      · rw [firstOccsAux, if_neg hy, List.append_cons]
        apply ih
        simp [List.nodup_append, h, hy]

theorem nodup_firstOccs {α : Type _} [DecidableEq α] (l : List α) :
    (firstOccs l).Nodup := by
  have := nodup_append_firstOccsAux l ([] : List α) List.nodup_nil
  simpa [firstOccs] using this

theorem mem_firstOccs {α : Type _} [DecidableEq α] (l : List α) (x : α) :
    x ∈ firstOccs l ↔ x ∈ l := by
  rw [firstOccs, mem_firstOccsAux]
  simp

theorem firstOccs_length {α : Type _} [DecidableEq α] (l : List α) :
    (firstOccs l).length = l.toFinset.card := by
  have h1 : (firstOccs l).toFinset = l.toFinset := by
    ext x
    simp [List.mem_toFinset, mem_firstOccs]
  rw [← h1, List.toFinset_card_of_nodup (nodup_firstOccs l)]

theorem assignAux_fst (place : Nat → Loc) :
    ∀ (l : List Nat) (seen : List Loc), (assignAux place seen l).map Prod.fst = l := by
  intro l
  induction l with
  | nil => intro seen; rfl
  | cons s l ih =>
      intro seen
      rw [assignAux]
      cases hfi : seen.findIdx? (fun x => x = place s) with
      | some i => simp [ih]
      | none => simp [ih]

theorem assignAux_snd (place : Nat → Loc) :
    ∀ (l : List Nat) (seen : List Loc), ∀ p ∈ assignAux place seen l,
      (seen ++ firstOccsAux seen (l.map place)).findIdx? (fun x => x = place p.1)
        = some p.2 := by
  intro l
  induction l with
  | nil => intro seen p hp; exact absurd hp (List.not_mem_nil p)
  | cons s l ih =>
      intro seen p hp
      rw [assignAux] at hp
      cases hfi : seen.findIdx? (fun x => x = place s) with
      | some i =>
          rw [hfi] at hp
          have hsmem : place s ∈ seen := by
            rw [List.findIdx?_eq_some_iff_getElem] at hfi
            obtain ⟨hlt, hp2, _⟩ := hfi
            simp only [decide_eq_true_eq] at hp2
            rw [← hp2]
            exact List.getElem_mem hlt
          have hfa : firstOccsAux seen ((s :: l).map place)
              = firstOccsAux seen (l.map place) := by
            rw [List.map_cons, firstOccsAux, if_pos hsmem]
          rcases List.mem_cons.mp hp with rfl | hp2
          · rw [hfa]
            exact findIdx?_isPrefix_stable (List.prefix_append seen _) hfi
          · rw [hfa]
            exact ih seen p hp2
      | none =>
          rw [hfi] at hp
          have hsmem : place s ∉ seen := by
            rw [List.findIdx?_eq_none_iff] at hfi
            intro hmem
            have := hfi _ hmem
            simp at this
          have hfa : seen ++ firstOccsAux seen ((s :: l).map place)
              = (seen ++ [place s]) ++ firstOccsAux (seen ++ [place s]) (l.map place) := by
            rw [List.map_cons, firstOccsAux, if_neg hsmem, List.append_cons]
          rcases List.mem_cons.mp hp with rfl | hp2
          · rw [hfa]
            apply findIdx?_isPrefix_stable (List.prefix_append (seen ++ [place s]) _)
            rw [List.findIdx?_append, hfi]
            simp
          · rw [hfa]
            exact ih (seen ++ [place s]) p hp2

theorem foldr_max_le {l : List Nat} {m : Nat} (h : ∀ x ∈ l, x ≤ m) :
    l.foldr max 0 ≤ m := by
  induction l with
  | nil => exact Nat.zero_le m
  | cons x l ih =>
      rw [List.foldr_cons, Nat.max_le]
      exact ⟨h x (List.mem_cons_self x l), ih (fun y hy => h y (List.mem_cons_of_mem x hy))⟩

theorem le_foldr_max {l : List Nat} {x : Nat} (h : x ∈ l) : x ≤ l.foldr max 0 := by
  induction l with
  | nil => exact absurd h (List.not_mem_nil x)
  | cons y l ih =>
      rw [List.foldr_cons]
      rcases List.mem_cons.mp h with rfl | h2
      · exact Nat.le_max_left _ _
      · exact le_trans (ih h2) (Nat.le_max_right _ _)

theorem nodup_findIdx?_self {α : Type _} [DecidableEq α] (l : List α) (hnd : l.Nodup)
    (j : Nat) (hj : j < l.length) :
    l.findIdx? (fun x => x = l.get ⟨j, hj⟩) = some j := by
  rw [List.findIdx?_eq_some_iff_getElem]
  refine ⟨hj, by simp, fun i hij => ?_⟩
  simp only [decide_eq_true_eq]
  intro heq
  have : (⟨i, Nat.lt_trans hij hj⟩ : Fin l.length) = ⟨j, hj⟩ :=
    (List.Nodup.get_inj_iff hnd).mp (by simpa using heq)
  have := Fin.mk.injEq .. ▸ this
  simp at this
  omega

/-- C6: per-group cluster assignment pairs each slice (in enumeration
order) with the index of its location in first-occurrence order, so two
slices of a group share a cluster id exactly when they share a
location, ids are sequential from 0 in order of first occurrence of
each location, the maximum id equals the number of distinct locations
minus 1, and a slice belonging to no group keeps the default cluster
id 0. -/
theorem claim6_cluster_ids (place : Nat → Loc) (group : List Nat) :
    ((identify_clusters_group place group).map Prod.fst = group) ∧
    (∀ p ∈ identify_clusters_group place group,
      (firstOccs (group.map place)).findIdx? (fun x => x = place p.1) = some p.2) ∧
    (∀ p ∈ identify_clusters_group place group,
      ∀ q ∈ identify_clusters_group place group,
        (p.2 = q.2 ↔ place p.1 = place q.1)) ∧
    (((identify_clusters_group place group).map Prod.snd).foldr max 0
      = (group.map place).toFinset.card - 1) ∧
    (∀ (groups : List (List Nat)) (s : Nat), (∀ g ∈ groups, s ∉ g) →
      getCluster (clusterMap place groups) s = 0) := by
  have hfst : (identify_clusters_group place group).map Prod.fst = group :=
    assignAux_fst place group []
  have hsnd : ∀ p ∈ identify_clusters_group place group,
      (firstOccs (group.map place)).findIdx? (fun x => x = place p.1) = some p.2 := by
    intro p hp
    have := assignAux_snd place group [] p hp
    simpa [firstOccs] using this
  refine ⟨hfst, hsnd, ?_, ?_, ?_⟩
  · intro p hp q hq
    have h2p := hsnd p hp
    have h2q := hsnd q hq
    constructor
    · intro heq
      rw [List.findIdx?_eq_some_iff_getElem] at h2p h2q
      obtain ⟨hlp, hpp, _⟩ := h2p
      obtain ⟨hlq, hpq, _⟩ := h2q
      simp only [decide_eq_true_eq] at hpp hpq
      rw [← hpp, ← hpq]
      congr 1
    · intro heq
      simp only [heq] at h2p
      exact Option.some.inj (h2p.symm.trans h2q)
  · by_cases hg : group = []
    · subst hg
      simp [identify_clusters_group, assignAux]
    · have hmem0 : ∃ x, x ∈ firstOccs (group.map place) := by
        rcases List.exists_mem_of_ne_nil group hg with ⟨s0, hs0⟩
        exact ⟨place s0, (mem_firstOccs _ _).mpr (List.mem_map_of_mem place hs0)⟩
      have hk : 1 ≤ (firstOccs (group.map place)).length := by
        rcases hmem0 with ⟨x, hx⟩
        have := List.length_pos.mpr (List.ne_nil_of_mem hx)
        omega
      have hle : ((identify_clusters_group place group).map Prod.snd).foldr max 0
          ≤ (firstOccs (group.map place)).length - 1 := by
        apply foldr_max_le
        intro x hx
        rcases List.mem_map.mp hx with ⟨p, hp, rfl⟩
        have h2 := hsnd p hp
        rw [List.findIdx?_eq_some_iff_getElem] at h2
        obtain ⟨hlt, _, _⟩ := h2
        omega
      have hge : (firstOccs (group.map place)).length - 1
          ≤ ((identify_clusters_group place group).map Prod.snd).foldr max 0 := by
        have hj : (firstOccs (group.map place)).length - 1
            < (firstOccs (group.map place)).length := by omega
        have hxmem : (firstOccs (group.map place)).get
            ⟨(firstOccs (group.map place)).length - 1, hj⟩ ∈ group.map place := by
          rw [← mem_firstOccs]
          exact List.get_mem _ _ hj
        rcases List.mem_map.mp hxmem with ⟨s, hs, hps⟩
        have hs2 : s ∈ (identify_clusters_group place group).map Prod.fst := by
          rw [hfst]
          exact hs
        rcases List.mem_map.mp hs2 with ⟨p, hp, rfl⟩
        have h2 := hsnd p hp
        rw [hps] at h2
        rw [nodup_findIdx?_self _ (nodup_firstOccs _) _ hj] at h2
        have hj2 := Option.some.inj h2
        have := le_foldr_max (List.mem_map_of_mem Prod.snd hp)
        omega
      rw [← firstOccs_length]
      omega
  · intro groups s hnotin
    unfold getCluster
    have hfind : (clusterMap place groups).find? (fun p => p.1 = s) = none := by
      rw [List.find?_eq_none]
      intro p hp
      simp only [decide_eq_true_eq]
      intro hps
      unfold clusterMap at hp
      rcases List.mem_flatten.mp hp with ⟨sub, hsub, hpsub⟩
      rcases List.mem_map.mp hsub with ⟨g, hg, rfl⟩
      have hpm : p.1 ∈ (identify_clusters_group place g).map Prod.fst :=
        List.mem_map_of_mem _ hpsub
      unfold identify_clusters_group at hpm
      rw [assignAux_fst place g []] at hpm
      exact hnotin g hg (hps ▸ hpm)
    rw [hfind]
    rfl

/-- Witness for C6 at a concrete input: a five-slice group over three
locations (two shared, one distinct), matching the repository test. -/
theorem claim6_witness :
    ∀ p ∈ identify_clusters_group (fun s => s / 2) [0, 1, 2, 3, 4],
      ∀ q ∈ identify_clusters_group (fun s => s / 2) [0, 1, 2, 3, 4],
        (p.2 = q.2 ↔ (fun s => s / 2) p.1 = (fun s => s / 2) q.1) :=
  (claim6_cluster_ids (fun s => s / 2) [0, 1, 2, 3, 4]).2.2.1

/-- C7: after cluster assignment, a net whose source belongs to some
group and whose key declares the `cluster` field reads back the
source's cluster id; a net whose key does not declare the field is left
untouched and reading `cluster` from it raises the unavailable-field
condition (modelled as `none`); and a net whose source is in no group
keeps its key untouched and, on a fresh key (default value 0), reads
cluster 0. -/
theorem claim7_cluster_writeback (place : Nat → Loc) (nets : List Net)
    (groups : List (List Nat)) :
    ((identify_clusters place nets groups).2.length = nets.length) ∧
    (∀ i (hi : i < nets.length) (hi2 : i < (identify_clusters place nets groups).2.length),
      (((identify_clusters place nets groups).2.get ⟨i, hi2⟩).source
          = (nets.get ⟨i, hi⟩).source) ∧
      ((∃ g ∈ groups, (nets.get ⟨i, hi⟩).source ∈ g) →
        (nets.get ⟨i, hi⟩).keyspace.has_cluster = true →
        ((identify_clusters place nets groups).2.get ⟨i, hi2⟩).keyspace.read_cluster
          = some (getCluster (clusterMap place groups) (nets.get ⟨i, hi⟩).source)) ∧
      ((nets.get ⟨i, hi⟩).keyspace.has_cluster = false →
        ((identify_clusters place nets groups).2.get ⟨i, hi2⟩).keyspace
            = (nets.get ⟨i, hi⟩).keyspace ∧
        ((identify_clusters place nets groups).2.get ⟨i, hi2⟩).keyspace.read_cluster
            = none) ∧
      ((∀ g ∈ groups, (nets.get ⟨i, hi⟩).source ∉ g) →
        ((identify_clusters place nets groups).2.get ⟨i, hi2⟩ = nets.get ⟨i, hi⟩) ∧
        ((nets.get ⟨i, hi⟩).keyspace.has_cluster = true →
          (nets.get ⟨i, hi⟩).keyspace.cluster_val = 0 →
          ((identify_clusters place nets groups).2.get ⟨i, hi2⟩).keyspace.read_cluster
            = some 0))) := by
  constructor
  · simp [identify_clusters]
  · intro i hi hi2
    have hget : (identify_clusters place nets groups).2.get ⟨i, hi2⟩
        = (fun net =>
            if groups.any (fun g => net.source ∈ g) then
              Net.mk net.source
                (net.keyspace.write_cluster (getCluster (clusterMap place groups) net.source))
            else net) (nets.get ⟨i, hi⟩) := by
      simp [identify_clusters]
    simp only [] at hget
    by_cases hmem : ∃ g ∈ groups, (nets.get ⟨i, hi⟩).source ∈ g
    · have hany : (groups.any (fun g => (nets.get ⟨i, hi⟩).source ∈ g)) = true := by
        rw [List.any_eq_true]
        rcases hmem with ⟨g, hg, hsg⟩
        exact ⟨g, hg, by simpa using hsg⟩
      rw [hany] at hget
      simp only [if_true] at hget
      refine ⟨by rw [hget], fun _ hhas => ?_, fun hnot => ?_, fun hno => ?_⟩
      · rw [hget]
        simp only [List.get_eq_getElem] at hhas
        simp [RoutingKey.write_cluster, RoutingKey.read_cluster, hhas]
      · rw [hget]
        simp only [List.get_eq_getElem] at hnot
        simp [RoutingKey.write_cluster, RoutingKey.read_cluster, hnot]
      · exfalso
        rcases hmem with ⟨g, hg, hsg⟩
        exact hno g hg hsg
    · have hany : (groups.any (fun g => (nets.get ⟨i, hi⟩).source ∈ g)) = false := by
        rw [List.any_eq_false]
        intro g hg
        simp only [decide_eq_true_eq]
        intro hsg
        exact hmem ⟨g, hg, hsg⟩
      rw [hany] at hget
      simp only [Bool.false_eq_true, if_false] at hget
      refine ⟨by rw [hget], fun hm _ => absurd hm hmem, fun hnot => ?_, fun _ => ?_⟩
      · rw [hget]
        simp only [List.get_eq_getElem] at hnot
        exact ⟨rfl, by simp [RoutingKey.read_cluster, hnot]⟩
      · refine ⟨hget, fun hhas hval => ?_⟩
        rw [hget]
        simp only [List.get_eq_getElem] at hhas hval
        simp [RoutingKey.read_cluster, hhas, hval]

/-- Witness for C7 at a concrete input: three nets — a grouped source
with a cluster-declaring key, a grouped source whose key lacks the
field, and an ungrouped source with a fresh key. -/
theorem claim7_witness :
    ((identify_clusters (fun s => s / 2)
        [⟨0, ⟨true, 0⟩⟩, ⟨1, ⟨false, 0⟩⟩, ⟨9, ⟨true, 0⟩⟩]
        [[0, 1, 2]]).2.get ⟨0, by simp [identify_clusters]⟩).keyspace.read_cluster
      = some (getCluster (clusterMap (fun s => s / 2) [[0, 1, 2]]) 0) := by
  have h := (claim7_cluster_writeback (fun s => s / 2)
      [⟨0, ⟨true, 0⟩⟩, ⟨1, ⟨false, 0⟩⟩, ⟨9, ⟨true, 0⟩⟩] [[0, 1, 2]]).2 0 (by decide)
      (by simp [identify_clusters])
  exact h.2.1 ⟨[0, 1, 2], by decide, by decide⟩ (by decide)

end NengoSpinnaker
